import Mathlib

/-!
# Verification of the ChatGPT visibility tracker's analysis engine

Shallow embedding of the text-analysis core of `src/app.py`.  Text is
modelled as `List Nat` of Unicode code points (the answers handled by the
program are ASCII; Python's `str.lower`, `\d`, `\s`, `[A-Z]` and `strip`
are modelled on the ASCII range).  Every function is translated from the
Python source, not from the spec.
-/

namespace VisTracker

/-- Text as a list of character codes. -/
abbrev Str := List Nat

/-- Convert a Lean string literal to its code-point list. -/
def str (s : String) : Str := s.data.map Char.toNat

/-- ASCII model of Python `str.lower` on one character. -/
def lowChar (n : Nat) : Nat := if 65 ≤ n ∧ n ≤ 90 then n + 32 else n

/-- `text.lower()` — lower-case every character. -/
def lowerStr (s : Str) : Str := s.map lowChar

/-- Regex `\d` (ASCII decimal digit). -/
def isDigitC (n : Nat) : Bool := decide (48 ≤ n ∧ n ≤ 57)

/-- Regex `\s` / `str.strip` whitespace class `[ \t\n\r\f\v]`. -/
def isSpaceC (n : Nat) : Bool :=
  decide (n = 32 ∨ n = 9 ∨ n = 10 ∨ n = 13 ∨ n = 12 ∨ n = 11)

/-- Regex `[A-Z]`. -/
def isUpperC (n : Nat) : Bool := decide (65 ≤ n ∧ n ≤ 90)

/-- `str.strip()` — drop whitespace from both ends. -/
def trimStr (s : Str) : Str :=
  ((s.dropWhile isSpaceC).reverse.dropWhile isSpaceC).reverse

/-- Length of the separator matched after a `'\n'` by the split pattern
`\n\d+\.|\n-|\n\*|\n(?=[A-Z])` of `analyze_response` (line 50), counted in
characters consumed after the newline.  `some k` means the separator is the
newline plus `k` further characters; the `(?=[A-Z])` lookahead consumes
nothing after the newline.  Alternatives are tried in the regex's order. -/
def sepLen (rest : Str) : Option Nat :=
  if rest.takeWhile isDigitC ≠ [] ∧
      (rest.dropWhile isDigitC).head? = some 46 then
    some ((rest.takeWhile isDigitC).length + 1)
  else
    match rest with
    | [] => none
    | c :: _ =>
      if c = 45 then some 1
      else if c = 42 then some 1
      else if isUpperC c then some 0 else none

/-- `re.split` of the boundary pattern: left-to-right scan accumulating the
current fragment in `acc` (in reverse).  Structural recursion on a fuel
argument so the kernel can evaluate it; every step consumes at least one
character, so `fuel = cs.length` always suffices (`splitGoF_irrel` below
proves the fuel choice immaterial), and the fuel-exhausted branch is
unreachable. -/
def splitGoF : Nat → Str → Str → List Str
  | _, [], acc => [acc.reverse]
  | 0, _ :: _, _ => []
  | fuel + 1, c :: rest, acc =>
    if c = 10 then
      match sepLen rest with
      | some k => acc.reverse :: splitGoF fuel (rest.drop k) []
      | none => splitGoF fuel rest (c :: acc)
    else splitGoF fuel rest (c :: acc)

/-- `re.split` of the boundary pattern of `analyze_response` line 50. -/
def splitGo (cs acc : Str) : List Str := splitGoF cs.length cs acc

/-- The Response Segmenter (`analyze_response` lines 50–51):
`items = re.split(r'\n\d+\.|\n-|\n\*|\n(?=[A-Z])', response_text.lower())`
then strip each item and drop empties. -/
def segment (text : Str) : List Str :=
  ((splitGo (lowerStr text) []).map trimStr).filter (fun i => !i.isEmpty)

/-- Whether some position of the text starts a boundary-pattern match. -/
def hasBoundary : Str → Bool
  | [] => false
  | c :: rest => (c = 10 && (sepLen rest).isSome) || hasBoundary rest

/-- Does `hay` start with `needle`? -/
def startsWithStr : Str → Str → Bool
  | [], _ => true
  | _ :: _, [] => false
  | a :: as, b :: bs => a == b && startsWithStr as bs

/-- Python's `needle in hay` substring containment. -/
def containsSub (hay needle : Str) : Bool :=
  match hay with
  | [] => startsWithStr needle []
  | c :: rest => startsWithStr needle (c :: rest) || containsSub rest needle

/-- Result recorded per brand by `analyze_response` (lines 65–69). -/
structure BrandResult where
  mentions : List Str
  positions : List Nat
  mention_count : Nat
deriving DecidableEq, Repr

/-- The mention-collecting loop of `analyze_response` (lines 60–63):
`for idx, item in enumerate(items, 1): if brand_lower in item: append`.
`i` is the 1-based ordinal of the head of `items`. -/
def collect (brandLower : Str) : Nat → List Str → List Str × List Nat
  | _, [] => ([], [])
  | i, item :: rest =>
    let r := collect brandLower (i + 1) rest
    if containsSub item brandLower then (item :: r.1, i :: r.2) else r

/-- The Mention Locator for one brand over the segmented items
(`analyze_response` lines 56–68). -/
def locateBrand (items : List Str) (brand : Str) : BrandResult :=
  let r := collect (lowerStr brand) 1 items
  { mentions := r.1, positions := r.2, mention_count := r.1.length }

/-- The dict returned by `analyze_response` (lines 71–74). -/
structure Analysis where
  brand_results : List (Str × BrandResult)
  total_items : Nat
deriving DecidableEq, Repr

/-- `analyze_response` (lines 48–74).  The brand-results dict is an
association list in insertion order; only non-empty brand names are
analyzed (`if brand:`). -/
def analyze_response (response_text brand_name competitor_brand : Str) :
    Analysis :=
  let items := segment response_text
  let brands := [brand_name, competitor_brand].filter (fun b => !b.isEmpty)
  { brand_results := brands.map (fun b => (b, locateBrand items b))
    total_items := items.length }

/-! ## Heuristic Brand Extractor (`analyze_top_brands`, lines 76–100) -/

/-- Regex `^\d+\.` at the start of a line: if it matches, return the text
after the numeral-period marker (the `\d+` is greedy; a shorter digit run
would be followed by a digit, not `.`, so maximal-run-then-dot is exact). -/
def numDot (cs : Str) : Option Str :=
  if (cs.takeWhile isDigitC) ≠ [] then
    match cs.dropWhile isDigitC with
    | 46 :: r => some r
    | _ => none
  else none

/-- Does the terminator `(?:\s*-|\.|$)` of the candidate-grabbing regex
match at this position (the `$` case is the `[]` base case of `grab`)? -/
def stopAt (s : Str) : Bool :=
  s.head? == some 46 || (s.dropWhile isSpaceC).head? == some 45

/-- The lazy group `(.*?)` of `re.search(r'^\d+\.\s*(.*?)(?:\s*-|\.|$)')`:
shortest prefix ending where the terminator matches. -/
def grab : Str → Str
  | [] => []
  | c :: rest => if stopAt (c :: rest) then [] else c :: grab rest

/-- One match of `re.sub(r'\s*\([^)]*\)', '', ...)` at the current
position: maximal whitespace, `(`, non-`)` run, `)`; returns the rest. -/
def parenAt (cs : Str) : Option Nat :=
  match cs.dropWhile isSpaceC with
  | 40 :: r =>
    match r.dropWhile (fun c => !(c == 41)) with
    | 41 :: _ =>
      some ((cs.takeWhile isSpaceC).length + 1 +
        (r.takeWhile (fun c => !(c == 41))).length + 1)
    | _ => none
  | _ => none

/-- Delete every parenthetical annotation (left-to-right `re.sub`); a match
always consumes its first character, so on `some k` we skip the current
character plus `k - 1` further ones.  Structural recursion on fuel, with
`fuel = cs.length` always sufficient (`delParenF_irrel` below). -/
def delParenF : Nat → Str → Str
  | _, [] => []
  | 0, _ :: _ => []
  | fuel + 1, c :: rest =>
    match parenAt (c :: rest) with
    | some k => delParenF fuel (rest.drop (k - 1))
    | none => c :: delParenF fuel rest

/-- `re.sub(r'\s*\([^)]*\)', '', brand)` (line 87). -/
def delParen (cs : Str) : Str := delParenF cs.length cs

/-- Case-insensitive match of the lower-case pattern `pat` at the start of
`cs`, returning the rest. -/
def matchCI (pat cs : Str) : Option Str :=
  match pat, cs with
  | [], rest => some rest
  | p :: ps, c :: cs2 => if lowChar c == p then matchCI ps cs2 else none
  | _ :: _, [] => none

/-- One alternative of
`re.sub(r'^(Amazon Web Services|Microsoft Azure|Google Cloud Platform)\s+',
r'\1 ', brand, flags=re.IGNORECASE)`: if `brand` starts with `pat`
(case-insensitively) followed by at least one whitespace character, replace
the name plus the whitespace run by the original-cased name plus one
space. -/
def tryNorm (pat brand : Str) : Option Str :=
  match matchCI pat brand with
  | none => none
  | some rest =>
    if (rest.takeWhile isSpaceC).isEmpty then none
    else some (brand.take pat.length ++ 32 :: rest.dropWhile isSpaceC)

/-- The fixed multi-word provider-name normalization (line 88). -/
def normBrand (brand : Str) : Str :=
  match tryNorm (str "amazon web services") brand with
  | some r => r
  | none =>
    match tryNorm (str "microsoft azure") brand with
    | some r => r
    | none =>
      match tryNorm (str "google cloud platform") brand with
      | some r => r
      | none => brand

/-- Candidate brand extracted from one line (`analyze_top_brands` lines
83–91): the line must start with `\d+\.`; the candidate is the lazy group
up to the first `\s*-`, `.` or end of line, then stripped, parentheticals
removed, normalized, re-stripped, and kept only if longer than one
character. -/
def extractCandidate (line : Str) : Option Str :=
  match numDot line with
  | none => none
  | some rest =>
    let g := grab (rest.dropWhile isSpaceC)
    let b1 := trimStr g
    let b2 := delParen b1
    let b3 := normBrand b2
    let b4 := trimStr b3
    if b4.length > 1 then some b4 else none

/-- `brand_mentions[brand] = brand_mentions.get(brand, 0) + 1` on an
insertion-ordered association list (Python dicts preserve insertion
order). -/
def bump (m : List (Str × Nat)) (b : Str) : List (Str × Nat) :=
  match m with
  | [] => [(b, 1)]
  | (k, v) :: rest => if k = b then (k, v + 1) :: rest else (k, v) :: bump rest b

/-- Python `text.split('\n')` (keeps empty fragments). -/
def splitNl : Str → List Str
  | [] => [[]]
  | c :: rest =>
    if c = 10 then [] :: splitNl rest
    else
      match splitNl rest with
      | l :: ls => (c :: l) :: ls
      | [] => [[c]]

/-- Accumulate extracted candidates of one response's lines into the
frequency table (`analyze_top_brands` lines 81–92). -/
def extractLines (m : List (Str × Nat)) (lines : List Str) :
    List (Str × Nat) :=
  lines.foldl (fun m line =>
    match extractCandidate line with
    | some b => bump m b
    | none => m) m

/-- Insert an entry into a count-descending list, before the first entry of
equal or smaller count (so that, as in Python's stable
`sorted(..., key=count, reverse=True)`, earlier entries stay first among
equal counts). -/
def insDesc (x : Str × Nat) : List (Str × Nat) → List (Str × Nat)
  | [] => [x]
  | y :: ys => if y.2 ≤ x.2 then x :: y :: ys else y :: insDesc x ys

/-- `sorted(brand_mentions.items(), key=lambda x: x[1], reverse=True)` —
the unique stable sort by count descending (line 95). -/
def sortDesc : List (Str × Nat) → List (Str × Nat)
  | [] => []
  | x :: xs => insDesc x (sortDesc xs)

/-! ## Run orchestration (`run_analysis`, lines 102–163) -/

/-- `generate_prompts` (lines 28–46): the fixed 15 prompt templates with
the query substituted. -/
def generate_prompts (query : Str) : List Str :=
  [str "List the top 10 results for " ++ query ++ str ".",
   str "What are the leading options for " ++ query ++ str "? List them in order.",
   str "Rank the best solutions for " ++ query ++ str ".",
   str "Which companies or websites are most relevant for " ++ query ++ str "? List in order.",
   str "What are the most popular choices for " ++ query ++ str "? Rank them.",
   str "List the market leaders for " ++ query ++ str ".",
   str "What are the top-rated options for " ++ query ++ str "?",
   str "Rank the most recommended solutions for " ++ query ++ str ".",
   str "Which providers are most trusted for " ++ query ++ str "? List in order.",
   str "What are the best available options for " ++ query ++ str "? Rank them.",
   str "What is the best " ++ query ++ str "?",
   str "Which are the best " ++ query ++ str " and why?",
   str "What\x27s the absolute best " ++ query ++ str " available today?",
   str "List the best " ++ query ++ str " options from best to worst.",
   str "Who offers the best " ++ query ++ str " service?"]

/-- One entry of `results` (lines 129–133): prompt, raw response and its
analysis.  The dict has no error field; failed prompts append nothing. -/
structure PerPromptResult where
  prompt : Str
  response : Str
  analysis : Analysis
deriving DecidableEq, Repr

/-- Per-brand summary (lines 153–158).  `average_position` is modelled
exactly over `ℚ` (the Python float arithmetic of the values the claims
involve is exact). -/
structure BrandSummary where
  total_mentions : Nat
  average_position : ℚ
  times_ranked : Nat
  rankings : List Nat
deriving DecidableEq, Repr

/-- Return value of `run_analysis` (lines 160–163). -/
structure RunResult where
  detailed_results : List PerPromptResult
  summary : List (Str × BrandSummary)
deriving DecidableEq, Repr

/-- Python `round` to the nearest integer, ties to even. -/
def roundHalfEven (q : ℚ) : ℤ :=
  if q - ⌊q⌋ < 1 / 2 then ⌊q⌋
  else if 1 / 2 < q - ⌊q⌋ then ⌊q⌋ + 1
  else if ⌊q⌋ % 2 = 0 then ⌊q⌋ else ⌊q⌋ + 1

/-- Python `round(x, 2)`. -/
def round2 (q : ℚ) : ℚ := (roundHalfEven (q * 100) : ℚ) / 100

/-- The per-brand summary computation (lines 151–158):
`avg = sum(positions)/len(positions) if positions else 0`. -/
def mkSummary (mentions : Nat) (positions : List Nat) : BrandSummary :=
  let avg : ℚ :=
    if positions.isEmpty then 0 else (positions.sum : ℚ) / positions.length
  { total_mentions := mentions
    average_position := round2 avg
    times_ranked := positions.length
    rankings := positions }

/-- `brand_totals` initialization (lines 106–108).  The dict comprehension
`{brand_name: ... for brand in [brand_name, competitor_brand] if brand}`
keys every qualifying iteration by `brand_name`, so it contributes at most
the single key `brand_name`; then `brand_totals[competitor_brand]` is set
when the competitor is non-empty (overwriting the same fresh value when the
two names coincide). -/
def initTotals (brand_name competitor_brand : Str) :
    List (Str × Nat × List Nat) :=
  let base : List (Str × Nat × List Nat) :=
    if brand_name ≠ [] ∨ competitor_brand ≠ [] then [(brand_name, 0, [])]
    else []
  if competitor_brand = [] then base
  else if competitor_brand = brand_name then base
  else base ++ [(competitor_brand, 0, [])]

/-- First-match association-list lookup (Python dict access). -/
def lookupBR : List (Str × BrandResult) → Str → Option BrandResult
  | [], _ => none
  | (k, v) :: rest, b => if k = b then some v else lookupBR rest b

/-- The per-prompt aggregation (lines 135–139): for each tracked brand
present in the analysis, add its mention count and extend its position
list. -/
def updateTotals (totals : List (Str × Nat × List Nat)) (a : Analysis) :
    List (Str × Nat × List Nat) :=
  totals.map (fun t =>
    match lookupBR a.brand_results t.1 with
    | some br => (t.1, t.2.1 + br.mention_count, t.2.2 ++ br.positions)
    | none => t)

/-- One iteration of the prompt loop (lines 110–146).  The provider is a
function from the call's index to `some` response text or `none` for a
raised provider error; on `none` the `except` branch only displays the
error, appending no result and updating no totals. -/
def runStep (brand_name competitor_brand : Str)
    (provider : Nat → Option Str)
    (st : List PerPromptResult × List (Str × Nat × List Nat))
    (ip : Nat × Str) :
    List PerPromptResult × List (Str × Nat × List Nat) :=
  match provider ip.1 with
  | none => st
  | some response_text =>
    let analysis := analyze_response response_text brand_name competitor_brand
    (st.1 ++ [{ prompt := ip.2, response := response_text,
                analysis := analysis }],
     updateTotals st.2 analysis)

/-- `run_analysis` (lines 102–163): iterate the fixed prompt list, then
compute the per-brand summaries from the accumulated totals. -/
def run_analysis (brand_name competitor_brand query : Str)
    (provider : Nat → Option Str) : RunResult :=
  let prompts := generate_prompts query
  let st := prompts.enum.foldl (runStep brand_name competitor_brand provider)
    ([], initTotals brand_name competitor_brand)
  { detailed_results := st.1
    summary := st.2.map (fun t => (t.1, mkSummary t.2.1 t.2.2)) }

/-- Concrete resilience scenario: the provider call for the third prompt
(index 2) raises; every other call returns `"1. Acme - x"`. -/
def provFail3 : Nat → Option Str :=
  fun i => if i = 2 then none else some (str "1. Acme - x")

/-- The top-brands view (`analyze_top_brands`, lines 76–100). -/
structure TopBrands where
  top_mentioned : List (Str × Nat)
  all_brands : List (Str × Nat)
deriving DecidableEq, Repr

/-- Run-wide candidate-brand frequency table in first-seen order
(`analyze_top_brands` lines 78–92). -/
def brandMentions (results : List PerPromptResult) : List (Str × Nat) :=
  results.foldl (fun m r => extractLines m (splitNl r.response)) []

/-- `analyze_top_brands` (lines 76–100): sort the frequency table by count
descending (stable) and expose the full table plus the top-3 slice. -/
def analyze_top_brands (results : RunResult) : TopBrands :=
  let sorted_brands := sortDesc (brandMentions results.detailed_results)
  { top_mentioned := sorted_brands.take 3
    all_brands := sorted_brands }

/-!
## Theorems

Claim theorems are named after the property they settle; helper lemmas
precede them.
-/

/-- The fuel argument of `splitGoF` is immaterial once it covers the input
length: the scanner consumes at least one character per unit of fuel. -/
theorem splitGoF_irrel : ∀ (n1 n2 : Nat) (cs acc : Str),
    cs.length ≤ n1 → cs.length ≤ n2 → splitGoF n1 cs acc = splitGoF n2 cs acc := by
  intro n1
  induction n1 with
  | zero =>
    intro n2 cs acc h1 _
    have : cs = [] := List.length_eq_zero.mp (Nat.le_zero.mp h1)
    subst this
    cases n2 <;> rfl
  | succ m ih =>
    intro n2 cs acc h1 h2
    cases cs with
    | nil => cases n2 <;> rfl
    | cons c rest =>
      cases n2 with
      | zero => simp at h2
      | succ m2 =>
        simp only [splitGoF]
        by_cases hc : c = 10
        · simp only [if_pos hc]
          cases hs : sepLen rest with
          | some k =>
            dsimp only
            simp only [List.length_cons] at h1 h2
            rw [ih m2 (rest.drop k) []
              (by simp only [List.length_drop]; omega)
              (by simp only [List.length_drop]; omega)]
          | none =>
            dsimp only
            simp only [List.length_cons] at h1 h2
            exact ih m2 rest (c :: acc) (by omega) (by omega)
        · simp only [if_neg hc]
          simp only [List.length_cons] at h1 h2
          exact ih m2 rest (c :: acc) (by omega) (by omega)

/-- Unfolding equation for `splitGo` at a cons cell. -/
theorem splitGo_cons (c : Nat) (rest acc : Str) :
    splitGo (c :: rest) acc =
      if c = 10 then
        match sepLen rest with
        | some k => acc.reverse :: splitGo (rest.drop k) []
        | none => splitGo rest (c :: acc)
      else splitGo rest (c :: acc) := by
  show splitGoF (rest.length + 1) (c :: rest) acc = _
  simp only [splitGoF]
  by_cases hc : c = 10
  · simp only [if_pos hc]
    cases hs : sepLen rest with
    | some k =>
      dsimp only
      rw [splitGoF_irrel rest.length (rest.drop k).length (rest.drop k) []
        (by simp only [List.length_drop]; omega) (Nat.le_refl _)]
      rfl
    | none => rfl
  · simp only [if_neg hc]
    rfl

/-- The fuel argument of `delParenF` is immaterial once it covers the input
length. -/
theorem delParenF_irrel : ∀ (n1 n2 : Nat) (cs : Str),
    cs.length ≤ n1 → cs.length ≤ n2 → delParenF n1 cs = delParenF n2 cs := by
  intro n1
  induction n1 with
  | zero =>
    intro n2 cs h1 _
    have : cs = [] := List.length_eq_zero.mp (Nat.le_zero.mp h1)
    subst this
    cases n2 <;> rfl
  | succ m ih =>
    intro n2 cs h1 h2
    cases cs with
    | nil => cases n2 <;> rfl
    | cons c rest =>
      cases n2 with
      | zero => simp at h2
      | succ m2 =>
        simp only [delParenF]
        simp only [List.length_cons] at h1 h2
        cases hp : parenAt (c :: rest) with
        | some k =>
          dsimp only
          exact ih m2 (rest.drop (k - 1))
            (by simp only [List.length_drop]; omega)
            (by simp only [List.length_drop]; omega)
        | none =>
          dsimp only
          rw [ih m2 rest (by omega) (by omega)]

/-- Lower-casing is idempotent on character codes. -/
theorem lowChar_idem (n : Nat) : lowChar (lowChar n) = lowChar n := by
  unfold lowChar
  by_cases h : 65 ≤ n ∧ n ≤ 90
  · rw [if_pos h, if_neg (by omega)]
  · rw [if_neg h, if_neg h]

/-- Lower-casing fixes the newline character (and nothing becomes one). -/
theorem lowChar_eq_ten (n : Nat) : lowChar n = 10 ↔ n = 10 := by
  unfold lowChar; split <;> omega

/-- Lower-casing preserves being the dash character. -/
theorem lowChar_eq_fortyfive (n : Nat) : lowChar n = 45 ↔ n = 45 := by
  unfold lowChar; split <;> omega

/-- Lower-casing preserves being the asterisk character. -/
theorem lowChar_eq_fortytwo (n : Nat) : lowChar n = 42 ↔ n = 42 := by
  unfold lowChar; split <;> omega

/-- Lower-casing preserves being the period character. -/
theorem lowChar_eq_fortysix (n : Nat) : lowChar n = 46 ↔ n = 46 := by
  unfold lowChar; split <;> omega

/-- Lower-casing preserves digit-ness. -/
theorem isDigitC_lowChar (n : Nat) : isDigitC (lowChar n) = isDigitC n := by
  unfold isDigitC lowChar
  split <;> simp only [decide_eq_decide] <;> omega

/-- Lower-casing preserves whitespace-ness. -/
theorem isSpaceC_lowChar (n : Nat) : isSpaceC (lowChar n) = isSpaceC n := by
  unfold isSpaceC lowChar
  split <;> simp only [decide_eq_decide] <;> omega

/-- No lower-cased character is an upper-case letter. -/
theorem isUpperC_lowChar (n : Nat) : isUpperC (lowChar n) = false := by
  unfold isUpperC lowChar
  split <;> (rw [decide_eq_false_iff_not]; omega)

/-- `takeWhile` commutes with lower-casing when the predicate does. -/
theorem takeWhile_lowerStr (p : Nat → Bool)
    (hp : ∀ n, p (lowChar n) = p n) :
    ∀ l : Str, (lowerStr l).takeWhile p = lowerStr (l.takeWhile p) := by
  intro l
  simp only [lowerStr]
  induction l with
  | nil => rfl
  | cons c rest ih =>
    simp only [List.map_cons, List.takeWhile_cons, hp c]
    cases hc : p c <;> simp [hc, ih]

/-- `dropWhile` commutes with lower-casing when the predicate does. -/
theorem dropWhile_lowerStr (p : Nat → Bool)
    (hp : ∀ n, p (lowChar n) = p n) :
    ∀ l : Str, (lowerStr l).dropWhile p = lowerStr (l.dropWhile p) := by
  intro l
  simp only [lowerStr]
  induction l with
  | nil => rfl
  | cons c rest ih =>
    simp only [List.map_cons, List.dropWhile_cons, hp c]
    cases hc : p c <;> simp [hc, ih]

/-- If no separator matches after a newline, none matches after it in the
lower-cased text either. -/
theorem sepLen_lower_none (rest : Str) (h : sepLen rest = none) :
    sepLen (lowerStr rest) = none := by
  unfold sepLen at h ⊢
  by_cases hcond : (rest.takeWhile isDigitC) ≠ [] ∧
      (rest.dropWhile isDigitC).head? = some 46
  · rw [if_pos hcond] at h; exact absurd h (by simp)
  · rw [if_neg hcond] at h
    have hcond2 : ¬((lowerStr rest).takeWhile isDigitC ≠ [] ∧
        ((lowerStr rest).dropWhile isDigitC).head? = some 46) := by
      rw [takeWhile_lowerStr isDigitC isDigitC_lowChar,
        dropWhile_lowerStr isDigitC isDigitC_lowChar]
      intro ⟨h1, h2⟩
      apply hcond
      constructor
      · intro hnil; apply h1; rw [hnil]; rfl
      · rcases hd : (rest.dropWhile isDigitC) with _ | ⟨x, xs⟩
        · rw [hd] at h2; simp [lowerStr] at h2
        · rw [hd] at h2
          simp only [lowerStr, List.map_cons, List.head?_cons,
            Option.some.injEq] at h2
          simp only [List.head?_cons, Option.some.injEq]
          exact (lowChar_eq_fortysix x).mp h2
    rw [if_neg hcond2]
    cases rest with
    | nil => rfl
    | cons c r =>
      simp only [lowerStr, List.map_cons] at h ⊢
      by_cases h45 : c = 45
      · rw [if_pos h45] at h; exact absurd h (by simp)
      · rw [if_neg h45] at h
        by_cases h42 : c = 42
        · rw [if_pos h42] at h; exact absurd h (by simp)
        · rw [if_neg (fun hx => h45 ((lowChar_eq_fortyfive c).mp hx)),
            if_neg (fun hx => h42 ((lowChar_eq_fortytwo c).mp hx))]
          simp [isUpperC_lowChar]

/-- A text with no boundary-pattern occurrence still has none after
lower-casing (digits, periods, dashes, asterisks and newlines are fixed by
lower-casing, and the upper-case lookahead can only disappear). -/
theorem hasBoundary_lower (cs : Str) (h : hasBoundary cs = false) :
    hasBoundary (lowerStr cs) = false := by
  induction cs with
  | nil => rfl
  | cons c rest ih =>
    simp only [hasBoundary, Bool.or_eq_false_iff, Bool.and_eq_false_iff] at h
    obtain ⟨h1, h2⟩ := h
    simp only [lowerStr, List.map_cons, hasBoundary, Bool.or_eq_false_iff,
      Bool.and_eq_false_iff]
    refine ⟨?_, ?_⟩
    · rcases h1 with h1 | h1
      · left
        simp only [decide_eq_false_iff_not] at h1 ⊢
        exact fun hx => h1 ((lowChar_eq_ten c).mp hx)
      · right
        simp only [Option.not_isSome, Option.isNone_iff_eq_none] at h1 ⊢
        exact sepLen_lower_none rest h1
    · exact ih h2

/-- Splitting a text with no boundary occurrence yields the whole text
(prefixed by the pending fragment). -/
theorem splitGo_no_boundary : ∀ (cs acc : Str), hasBoundary cs = false →
    splitGo cs acc = [acc.reverse ++ cs] := by
  intro cs
  induction cs with
  | nil => intro acc _; simp [splitGo, splitGoF]
  | cons c rest ih =>
    intro acc h
    simp only [hasBoundary, Bool.or_eq_false_iff, Bool.and_eq_false_iff] at h
    obtain ⟨h1, h2⟩ := h
    rw [splitGo_cons]
    by_cases hc : c = 10
    · rcases h1 with h1 | h1
      · simp [hc] at h1
      · simp only [Option.not_isSome, Option.isNone_iff_eq_none] at h1
        rw [if_pos hc, h1, ih (c :: acc) h2]
        simp
    · rw [if_neg hc, ih (c :: acc) h2]
      simp

/-- `strip` commutes with lower-casing. -/
theorem lowerStr_reverse (X : Str) : lowerStr X.reverse = (lowerStr X).reverse :=
  List.map_reverse lowChar X

/-- `strip` commutes with lower-casing. -/
theorem trimStr_lower (l : Str) : trimStr (lowerStr l) = lowerStr (trimStr l) := by
  unfold trimStr
  rw [dropWhile_lowerStr isSpaceC isSpaceC_lowChar l, ← lowerStr_reverse,
    dropWhile_lowerStr isSpaceC isSpaceC_lowChar, ← lowerStr_reverse]

/-- Claim C5, counterexample: `"Hello"` contains no boundary pattern and is
its own trim, yet segmenting it yields `["hello"]`, not `[trim "Hello"]` —
the Segmenter lower-cases its input. -/
theorem segment_no_boundary_ne_trim :
    hasBoundary (str "Hello") = false ∧ trimStr (str "Hello") ≠ []
      ∧ segment (str "Hello") ≠ [trimStr (str "Hello")]
      ∧ segment (str "Hello") = [str "hello"] := by
  refine ⟨by decide, by decide, by decide, by decide⟩

/-- Claim C5, amended: for every text `T` containing no occurrence of a
list-boundary pattern, if `trim T` is non-empty then segmenting `T` returns
exactly the single item `trim (lower T)` (the code lower-cases before
splitting); the Segmenter is a total function, so it never fails. -/
theorem segment_no_boundary (T : Str) (h : hasBoundary T = false)
    (ht : trimStr T ≠ []) : segment T = [trimStr (lowerStr T)] := by
  have hne : trimStr (lowerStr T) ≠ [] := by
    rw [trimStr_lower]
    intro hx
    exact ht (List.map_eq_nil_iff.mp hx)
  have hb : (trimStr (lowerStr T)).isEmpty = false := by
    cases hE : trimStr (lowerStr T) with
    | nil => exact absurd hE hne
    | cons a l => rfl
  unfold segment
  rw [splitGo_no_boundary (lowerStr T) [] (hasBoundary_lower T h)]
  simp [hb]

/-- Witness for `segment_no_boundary` at `"hello world"`. -/
theorem segment_no_boundary_witness :
    hasBoundary (str "hello world") = false
      ∧ trimStr (str "hello world") ≠ []
      ∧ segment (str "hello world") = [trimStr (lowerStr (str "hello world"))] :=
  ⟨by decide, by decide, segment_no_boundary _ (by decide) (by decide)⟩

/-- A map that fixes every element of a list fixes the list. -/
theorem map_id_on (f : Nat → Nat) :
    ∀ l : Str, (∀ x ∈ l, f x = x) → l.map f = l := by
  intro l
  induction l with
  | nil => intro _; rfl
  | cons c rest ih =>
    intro h
    simp only [List.map_cons, h c (List.mem_cons_self c rest),
      ih fun x hx => h x (List.mem_cons_of_mem c hx)]

/-- Every position collected by the mention loop lies in the enumerated
range and its item contains the (lower-cased) brand. -/
theorem collect_spec (b : Str) : ∀ (items : List Str) (i p : Nat),
    p ∈ (collect b i items).2 →
    i ≤ p ∧ p < i + items.length
      ∧ containsSub (items.getD (p - i) []) b = true := by
  intro items
  induction items with
  | nil => intro i p hp; simp [collect] at hp
  | cons item rest ih =>
    intro i p hp
    simp only [collect] at hp
    by_cases hc : containsSub item b = true
    · rw [if_pos hc] at hp
      rcases List.mem_cons.mp hp with hp | hp
      · subst hp
        refine ⟨Nat.le_refl _, by simp only [List.length_cons]; omega, ?_⟩
        simpa [Nat.sub_self] using hc
      · obtain ⟨h1, h2, h3⟩ := ih (i + 1) p hp
        refine ⟨by omega, by simp only [List.length_cons]; omega, ?_⟩
        have hpi : p - i = (p - (i + 1)) + 1 := by omega
        rw [hpi]
        simpa using h3
    · rw [if_neg hc] at hp
      obtain ⟨h1, h2, h3⟩ := ih (i + 1) p hp
      refine ⟨by omega, by simp only [List.length_cons]; omega, ?_⟩
      have hpi : p - i = (p - (i + 1)) + 1 := by omega
      rw [hpi]
      simpa using h3

/-- The collected positions are strictly increasing. -/
theorem collect_sorted (b : Str) : ∀ (items : List Str) (i : Nat),
    (collect b i items).2.Pairwise (· < ·) := by
  intro items
  induction items with
  | nil => intro i; simp [collect]
  | cons item rest ih =>
    intro i
    simp only [collect]
    by_cases hc : containsSub item b = true
    · rw [if_pos hc]
      refine List.Pairwise.cons ?_ (ih (i + 1))
      intro p hp
      exact Nat.lt_of_lt_of_le (Nat.lt_succ_self i)
        (collect_spec b rest (i + 1) p hp).1
    · rw [if_neg hc]
      exact ih (i + 1)

/-- Every character of every fragment produced by the splitter comes from
the pending accumulator or from the input. -/
theorem splitGo_chars : ∀ (n : Nat) (cs acc : Str), cs.length ≤ n →
    ∀ f ∈ splitGo cs acc, ∀ x ∈ f, x ∈ acc ∨ x ∈ cs := by
  intro n
  induction n with
  | zero =>
    intro cs acc h1 f hf x hx
    have : cs = [] := List.length_eq_zero.mp (Nat.le_zero.mp h1)
    subst this
    simp only [splitGo, splitGoF, List.mem_singleton] at hf
    subst hf
    exact Or.inl (List.mem_reverse.mp hx)
  | succ m ih =>
    intro cs acc h1 f hf x hx
    cases cs with
    | nil =>
      simp only [splitGo, splitGoF, List.mem_singleton] at hf
      subst hf
      exact Or.inl (List.mem_reverse.mp hx)
    | cons c rest =>
      rw [splitGo_cons] at hf
      simp only [List.length_cons] at h1
      by_cases hc : c = 10
      · rw [if_pos hc] at hf
        cases hs : sepLen rest with
        | some k =>
          rw [hs] at hf
          dsimp only at hf
          rcases List.mem_cons.mp hf with hf | hf
          · subst hf
            exact Or.inl (List.mem_reverse.mp hx)
          · rcases ih (rest.drop k) [] (by simp [List.length_drop]; omega)
              f hf x hx with h | h
            · simp at h
            · exact Or.inr (List.mem_cons_of_mem c (List.drop_subset k rest h))
        | none =>
          rw [hs] at hf
          dsimp only at hf
          rcases ih rest (c :: acc) (by omega) f hf x hx with h | h
          · rcases List.mem_cons.mp h with h | h
            · exact Or.inr (h ▸ List.mem_cons_self c rest)
            · exact Or.inl h
          · exact Or.inr (List.mem_cons_of_mem c h)
      · rw [if_neg hc] at hf
        rcases ih rest (c :: acc) (by omega) f hf x hx with h | h
        · rcases List.mem_cons.mp h with h | h
          · exact Or.inr (h ▸ List.mem_cons_self c rest)
          · exact Or.inl h
        · exact Or.inr (List.mem_cons_of_mem c h)

/-- Stripping only removes characters. -/
theorem trimStr_subset (l : Str) : ∀ x ∈ trimStr l, x ∈ l := by
  intro x hx
  unfold trimStr at hx
  rw [List.mem_reverse] at hx
  have h1 := (List.dropWhile_sublist (l := (l.dropWhile isSpaceC).reverse)
    isSpaceC).subset hx
  rw [List.mem_reverse] at h1
  exact (List.dropWhile_sublist isSpaceC).subset h1

/-- Every item the Segmenter produces is already lower-cased (the corpus
is rewritten to lower case before splitting). -/
theorem segment_lowered (text : Str) :
    ∀ item ∈ segment text, lowerStr item = item := by
  intro item hitem
  unfold segment at hitem
  obtain ⟨hmem, _⟩ := List.mem_filter.mp hitem
  obtain ⟨f, hf, hitem⟩ := List.mem_map.mp hmem
  subst hitem
  apply map_id_on
  intro x hx
  have hxf := trimStr_subset f x hx
  rcases splitGo_chars (lowerStr text).length (lowerStr text) []
      (Nat.le_refl _) f hf x hxf with h | h
  · simp at h
  · obtain ⟨y, _, hy⟩ := List.mem_map.mp h
    rw [← hy]
    exact lowChar_idem y

/-- Claim C8: every position recorded by the Mention Locator over the
segmented items of a raw answer is a 1-based ordinal `p` bounded by the
item count whose item contains the brand name case-insensitively, and the
recorded positions are strictly increasing. -/
theorem mention_positions_valid (text brand : Str) (hb : brand ≠ []) :
    (∀ p ∈ (locateBrand (segment text) brand).positions,
        1 ≤ p ∧ p ≤ (segment text).length
          ∧ containsSub (lowerStr ((segment text).getD (p - 1) []))
              (lowerStr brand) = true)
    ∧ (locateBrand (segment text) brand).positions.Pairwise (· < ·) := by
  constructor
  · intro p hp
    have hs := collect_spec (lowerStr brand) (segment text) 1 p hp
    obtain ⟨h1, h2, h3⟩ := hs
    refine ⟨h1, by omega, ?_⟩
    have hlt : p - 1 < (segment text).length := by omega
    have hmem : (segment text).getD (p - 1) [] ∈ segment text := by
      rw [List.getD_eq_getElem _ [] hlt]
      exact List.getElem_mem hlt
    rw [segment_lowered text _ hmem]
    exact h3
  · exact collect_sorted (lowerStr brand) (segment text) 1

/-- Witness for `mention_positions_valid` on the answer `"1. Acme - x"`
and brand `"acme"`. -/
theorem mention_positions_valid_witness :
    str "acme" ≠ []
    ∧ ((∀ p ∈ (locateBrand (segment (str "1. Acme - x")) (str "acme")).positions,
        1 ≤ p ∧ p ≤ (segment (str "1. Acme - x")).length
          ∧ containsSub
              (lowerStr ((segment (str "1. Acme - x")).getD (p - 1) []))
              (lowerStr (str "acme")) = true)
      ∧ (locateBrand (segment (str "1. Acme - x"))
          (str "acme")).positions.Pairwise (· < ·)) :=
  ⟨by decide, mention_positions_valid (str "1. Acme - x") (str "acme") (by decide)⟩

/-- Inserting into a count-descending list keeps it descending. -/
theorem insDesc_chain (x : Str × Nat) :
    ∀ l, List.Chain' (fun a b : Str × Nat => b.2 ≤ a.2) l →
      List.Chain' (fun a b : Str × Nat => b.2 ≤ a.2) (insDesc x l) := by
  intro l
  induction l with
  | nil => intro _; exact List.chain'_singleton x
  | cons y ys ih =>
    intro h
    unfold insDesc
    by_cases hy : y.2 ≤ x.2
    · rw [if_pos hy]
      exact List.Chain'.cons hy h
    · rw [if_neg hy]
      rw [List.chain'_cons'] at h ⊢
      refine ⟨?_, ih h.2⟩
      intro z hz
      cases ys with
      | nil =>
        simp only [insDesc, List.head?_cons, Option.mem_def,
          Option.some.injEq] at hz
        subst hz
        omega
      | cons w ws =>
        simp only [insDesc] at hz
        by_cases hw : w.2 ≤ x.2
        · rw [if_pos hw] at hz
          simp only [List.head?_cons, Option.mem_def, Option.some.injEq] at hz
          subst hz
          omega
        · rw [if_neg hw] at hz
          simp only [List.head?_cons, Option.mem_def, Option.some.injEq] at hz
          subst hz
          exact h.1 w (by simp)

/-- The sorted table is count-descending. -/
theorem sortDesc_chain :
    ∀ m, List.Chain' (fun a b : Str × Nat => b.2 ≤ a.2) (sortDesc m) := by
  intro m
  induction m with
  | nil => exact List.chain'_nil
  | cons x xs ih => exact insDesc_chain x (sortDesc xs) ih

/-- Inserting before the first equal-or-smaller count preserves, for each
count value, the relative order of entries (stability). -/
theorem insDesc_filter (x : Str × Nat) (c : Nat) :
    ∀ l, (insDesc x l).filter (fun p => p.2 == c)
      = if x.2 = c then x :: l.filter (fun p => p.2 == c)
        else l.filter (fun p => p.2 == c) := by
  intro l
  induction l with
  | nil =>
    by_cases hx : x.2 = c
    · rw [if_pos hx]
      simp [insDesc, List.filter_cons, hx]
    · rw [if_neg hx]
      simp [insDesc, List.filter_cons, hx]
  | cons y ys ih =>
    unfold insDesc
    by_cases hy : y.2 ≤ x.2
    · rw [if_pos hy]
      by_cases hx : x.2 = c
      · rw [if_pos hx]
        simp [List.filter_cons, hx]
      · rw [if_neg hx]
        simp only [List.filter_cons]
        rw [if_neg (by simpa using hx)]
    · rw [if_neg hy]
      by_cases hx : x.2 = c
      · rw [if_pos hx]
        have hyc : (y.2 == c) = false := by
          simp only [beq_eq_false_iff_ne, ne_eq]
          omega
        simp only [List.filter_cons, hyc, ih, if_pos hx]
        simp
      · rw [if_neg hx]
        simp only [List.filter_cons, ih, if_neg hx]

/-- Sorting filters to the same per-count subsequences as the input table:
ties are broken by the input's (first-seen) order. -/
theorem sortDesc_filter (c : Nat) :
    ∀ m, (sortDesc m).filter (fun p => p.2 == c)
      = m.filter (fun p => p.2 == c) := by
  intro m
  induction m with
  | nil => rfl
  | cons x xs ih =>
    show (insDesc x (sortDesc xs)).filter _ = _
    rw [insDesc_filter, ih]
    by_cases hx : x.2 = c
    · rw [if_pos hx]
      simp [List.filter_cons, hx]
    · rw [if_neg hx]
      simp only [List.filter_cons]
      rw [if_neg (by simpa using hx)]

/-- Insertion produces a permutation. -/
theorem insDesc_perm (x : Str × Nat) :
    ∀ l, (insDesc x l).Perm (x :: l) := by
  intro l
  induction l with
  | nil => exact List.Perm.refl _
  | cons y ys ih =>
    unfold insDesc
    by_cases hy : y.2 ≤ x.2
    · rw [if_pos hy]
    · rw [if_neg hy]
      exact (ih.cons y).trans (List.Perm.swap x y ys)

/-- Sorting permutes the table. -/
theorem sortDesc_perm : ∀ m, (sortDesc m).Perm m := by
  intro m
  induction m with
  | nil => exact List.Perm.refl _
  | cons x xs ih => exact (insDesc_perm x (sortDesc xs)).trans (ih.cons x)

/-- A new brand is appended at the end of the table; an existing brand
keeps the key order — the frequency table is in first-seen order. -/
theorem bump_keys : ∀ (m : List (Str × Nat)) (b : Str),
    (bump m b).map Prod.fst
      = if b ∈ m.map Prod.fst then m.map Prod.fst
        else m.map Prod.fst ++ [b] := by
  intro m
  induction m with
  | nil => intro b; simp [bump]
  | cons kv rest ih =>
    intro b
    obtain ⟨k, v⟩ := kv
    unfold bump
    by_cases hk : k = b
    · rw [if_pos hk]
      subst hk
      simp
    · rw [if_neg hk]
      simp only [List.map_cons, ih b, List.mem_cons]
      by_cases hb : b ∈ rest.map Prod.fst
      · rw [if_pos hb, if_pos (Or.inr hb)]
      · rw [if_neg hb, if_neg ?_]
        · simp
        · rintro (h | h)
          · exact hk h.symm
          · exact hb h

/-- Claim C7: the exposed full table is the count-descending stable sort of
the first-seen-ordered frequency table, the top-3 view is its prefix, the
ordering is descending, ties keep first-seen order (per-count filters
agree with the unsorted table), the table content is preserved, and
`bump` maintains first-seen key order. -/
theorem top_brands_sorted_stable :
    ∀ R : RunResult,
      (analyze_top_brands R).all_brands
          = sortDesc (brandMentions R.detailed_results)
      ∧ (analyze_top_brands R).top_mentioned
          = (analyze_top_brands R).all_brands.take 3
      ∧ List.Chain' (fun a b : Str × Nat => b.2 ≤ a.2)
          (analyze_top_brands R).all_brands
      ∧ (∀ c : Nat,
          (analyze_top_brands R).all_brands.filter (fun p => p.2 == c)
            = (brandMentions R.detailed_results).filter (fun p => p.2 == c))
      ∧ (analyze_top_brands R).all_brands.Perm
          (brandMentions R.detailed_results)
      ∧ ∀ (m : List (Str × Nat)) (b : Str),
          (bump m b).map Prod.fst
            = if b ∈ m.map Prod.fst then m.map Prod.fst
              else m.map Prod.fst ++ [b] :=
  fun R =>
    ⟨rfl, rfl, sortDesc_chain _, fun c => sortDesc_filter c _,
     sortDesc_perm _, bump_keys⟩

/-- The mention loop records exactly one position per recorded mention. -/
theorem collect_len (b : Str) : ∀ (items : List Str) (i : Nat),
    (collect b i items).1.length = (collect b i items).2.length := by
  intro items
  induction items with
  | nil => intro i; rfl
  | cons item rest ih =>
    intro i
    simp only [collect]
    by_cases hc : containsSub item b = true
    · rw [if_pos hc]
      simp [ih (i + 1)]
    · rw [if_neg hc]
      exact ih (i + 1)

/-- A successful association-list lookup returns a stored value. -/
theorem lookupBR_mem : ∀ (l : List (Str × BrandResult)) (k : Str)
    (v : BrandResult), lookupBR l k = some v → ∃ k2, (k2, v) ∈ l := by
  intro l
  induction l with
  | nil => intro k v h; simp [lookupBR] at h
  | cons kv rest ih =>
    intro k v h
    obtain ⟨k2, v2⟩ := kv
    simp only [lookupBR] at h
    by_cases hk : k2 = k
    · rw [if_pos hk] at h
      injection h with h
      subst h
      exact ⟨k2, List.mem_cons_self _ _⟩
    · rw [if_neg hk] at h
      obtain ⟨k3, hmem⟩ := ih k v h
      exact ⟨k3, List.mem_cons_of_mem _ hmem⟩

/-- In every per-brand result of `analyze_response`, the mention count
equals the number of recorded positions. -/
theorem analyze_response_counts (text bn cb : Str) :
    ∀ kv ∈ (analyze_response text bn cb).brand_results,
      kv.2.mention_count = kv.2.positions.length := by
  intro kv hkv
  simp only [analyze_response, List.mem_map] at hkv
  obtain ⟨b, _, hkv⟩ := hkv
  subst hkv
  exact collect_len (lowerStr b) (segment text) 1

/-- Aggregation preserves "mentions counted equals positions recorded" for
every tracked brand. -/
theorem updateTotals_inv (totals : List (Str × Nat × List Nat))
    (text bn cb : Str)
    (h : ∀ t ∈ totals, t.2.1 = t.2.2.length) :
    ∀ t ∈ updateTotals totals (analyze_response text bn cb),
      t.2.1 = t.2.2.length := by
  intro t ht
  simp only [updateTotals, List.mem_map] at ht
  obtain ⟨t0, ht0, ht⟩ := ht
  cases hl : lookupBR (analyze_response text bn cb).brand_results t0.1 with
  | none => rw [hl] at ht; subst ht; exact h t0 ht0
  | some br =>
    rw [hl] at ht
    subst ht
    obtain ⟨k2, hmem⟩ := lookupBR_mem _ _ _ hl
    have hbr := analyze_response_counts text bn cb (k2, br) hmem
    simp only at hbr
    simp only [List.length_append]
    rw [h t0 ht0, hbr]

/-- The loop invariant: after any number of prompt iterations, every
brand's running mention total equals its number of recorded positions. -/
theorem foldl_runStep_inv (bn cb : Str) (provider : Nat → Option Str) :
    ∀ (l : List (Nat × Str))
      (st : List PerPromptResult × List (Str × Nat × List Nat)),
      (∀ t ∈ st.2, t.2.1 = t.2.2.length) →
      ∀ t ∈ (l.foldl (runStep bn cb provider) st).2, t.2.1 = t.2.2.length := by
  intro l
  induction l with
  | nil => intro st h; exact h
  | cons ip rest ih =>
    intro st h
    simp only [List.foldl_cons]
    apply ih
    unfold runStep
    cases hp : provider ip.1 with
    | none => exact h
    | some text => exact updateTotals_inv st.2 text bn cb h

/-- The initial totals satisfy the invariant. -/
theorem initTotals_inv (bn cb : Str) :
    ∀ t ∈ initTotals bn cb, t.2.1 = t.2.2.length := by
  intro t ht
  unfold initTotals at ht
  by_cases h1 : bn ≠ [] ∨ cb ≠ []
  · rw [if_pos h1] at ht
    by_cases h2 : cb = []
    · rw [if_pos h2] at ht
      simp at ht
      simp [ht]
    · rw [if_neg h2] at ht
      by_cases h3 : cb = bn
      · rw [if_pos h3] at ht
        simp at ht
        simp [ht]
      · rw [if_neg h3] at ht
        simp at ht
        rcases ht with ht | ht <;> simp [ht]
  · rw [if_neg h1] at ht
    by_cases h2 : cb = []
    · rw [if_pos h2] at ht
      simp at ht
    · rw [if_neg h2] at ht
      by_cases h3 : cb = bn
      · rw [if_pos h3] at ht
        simp at ht
      · rw [if_neg h3] at ht
        simp at ht
        simp [ht]

/-- Claim C10: in every per-brand summary a run produces, `total_mentions`
equals `times_ranked` — both count one unit per recorded mention (mode-B
semantics on both sides). -/
theorem total_mentions_eq_times_ranked (bn cb q : Str)
    (provider : Nat → Option Str) (b : Str) (s : BrandSummary)
    (h : (b, s) ∈ (run_analysis bn cb q provider).summary) :
    s.total_mentions = s.times_ranked := by
  simp only [run_analysis, List.mem_map] at h
  obtain ⟨t, ht, hbs⟩ := h
  have hinv := foldl_runStep_inv bn cb provider (generate_prompts q).enum
    ([], initTotals bn cb) (initTotals_inv bn cb) t ht
  have hs : s = mkSummary t.2.1 t.2.2 := congrArg Prod.snd hbs.symm
  subst hs
  simpa [mkSummary] using hinv

/-- Witness for `total_mentions_eq_times_ranked`: a run whose provider
always fails summarizes the tracked brand with equal totals. -/
theorem total_mentions_eq_times_ranked_witness :
    (str "x", mkSummary 0 []) ∈
      (run_analysis (str "x") [] (str "q") (fun _ => none)).summary
    ∧ (mkSummary 0 []).total_mentions = (mkSummary 0 []).times_ranked :=
  ⟨List.mem_singleton.mpr rfl,
   total_mentions_eq_times_ranked (str "x") [] (str "q") (fun _ => none)
     (str "x") (mkSummary 0 []) (List.mem_singleton.mpr rfl)⟩

/-- Filtering a mapped list has the length of filtering by the composed
predicate. -/
theorem length_filter_map {α β : Type} (f : α → β) (p : β → Bool) :
    ∀ l : List α,
      ((l.map f).filter p).length = (l.filter (fun a => p (f a))).length := by
  intro l
  induction l with
  | nil => rfl
  | cons a rest ih =>
    simp only [List.map_cons, List.filter_cons]
    cases hp : p (f a) <;> simp [ih]

/-- Each loop iteration appends exactly one result when the provider call
succeeds and nothing when it raises. -/
theorem foldl_runStep_len (bn cb : Str) (provider : Nat → Option Str) :
    ∀ (l : List (Nat × Str))
      (st : List PerPromptResult × List (Str × Nat × List Nat)),
      ((l.foldl (runStep bn cb provider) st).1).length
        = st.1.length
          + (l.filter (fun ip => (provider ip.1).isSome)).length := by
  intro l
  induction l with
  | nil => intro st; simp
  | cons ip rest ih =>
    intro st
    simp only [List.foldl_cons, List.filter_cons]
    cases hp : provider ip.1 with
    | none =>
      have hstep : runStep bn cb provider st ip = st := by
        unfold runStep; rw [hp]
      rw [hstep, ih st]
      simp [hp]
    | some t =>
      have hstep : runStep bn cb provider st ip
          = (st.1 ++ [⟨ip.2, t, analyze_response t bn cb⟩],
             updateTotals st.2 (analyze_response t bn cb)) := by
        unfold runStep; rw [hp]
      rw [hstep, ih]
      simp [hp]
      try omega

/-- Every recorded per-prompt result's response came from a successful
provider call. -/
theorem foldl_runStep_prov (bn cb : Str) (provider : Nat → Option Str) :
    ∀ (l : List (Nat × Str))
      (st : List PerPromptResult × List (Str × Nat × List Nat)),
      (∀ r ∈ st.1, ∃ i, provider i = some r.response) →
      ∀ r ∈ (l.foldl (runStep bn cb provider) st).1,
        ∃ i, provider i = some r.response := by
  intro l
  induction l with
  | nil => intro st h; exact h
  | cons ip rest ih =>
    intro st h
    simp only [List.foldl_cons]
    apply ih
    intro r hr
    unfold runStep at hr
    cases hp : provider ip.1 with
    | none => rw [hp] at hr; exact h r hr
    | some t =>
      rw [hp] at hr
      rcases List.mem_append.mp hr with hr | hr
      · exact h r hr
      · simp only [List.mem_singleton] at hr
        subst hr
        exact ⟨ip.1, hp⟩

/-- The totals — and hence the summary — are the fold of the aggregation
step over the successful analyses only. -/
theorem foldl_runStep_totals (bn cb : Str) (provider : Nat → Option Str) :
    ∀ (l : List (Nat × Str))
      (st : List PerPromptResult × List (Str × Nat × List Nat)),
      (l.foldl (runStep bn cb provider) st).2
        = (l.filterMap (fun ip => (provider ip.1).map
            (fun t => analyze_response t bn cb))).foldl updateTotals st.2 := by
  intro l
  induction l with
  | nil => intro st; rfl
  | cons ip rest ih =>
    intro st
    simp only [List.foldl_cons]
    cases hp : provider ip.1 with
    | none =>
      have hstep : runStep bn cb provider st ip = st := by
        unfold runStep; rw [hp]
      have hfm : (provider ip.1).map (fun t => analyze_response t bn cb)
          = none := by rw [hp]; rfl
      rw [hstep, List.filterMap_cons_none
        (f := fun ip : Nat × Str =>
          Option.map (fun t => analyze_response t bn cb) (provider ip.1)) hfm]
      exact ih st
    | some t =>
      have hstep : runStep bn cb provider st ip
          = (st.1 ++ [⟨ip.2, t, analyze_response t bn cb⟩],
             updateTotals st.2 (analyze_response t bn cb)) := by
        unfold runStep; rw [hp]
      have hfm : (provider ip.1).map (fun t => analyze_response t bn cb)
          = some (analyze_response t bn cb) := by rw [hp]; rfl
      rw [hstep, List.filterMap_cons_some
        (f := fun ip : Nat × Str =>
          Option.map (fun t => analyze_response t bn cb) (provider ip.1)) hfm]
      simp only [List.foldl_cons]
      exact ih _

/-- Claim C4, counterexample: in the 15-prompt run where the provider call
for prompt 3 (index 2) fails, the run records only 14 per-prompt results —
all of them plain success records — so no error-marked `PerPromptResult`
exists for the failed prompt (the `except` branch only displays the error
and appends nothing). -/
theorem run_one_failure_no_error_marker :
    (run_analysis (str "acme") [] (str "q") provFail3).detailed_results.length
        = 14
    ∧ (run_analysis (str "acme") [] (str "q") provFail3).detailed_results.map
        PerPromptResult.response = List.replicate 14 (str "1. Acme - x") := by
  exact ⟨by decide, by decide⟩

/-- Claim C4, amended: a per-prompt provider failure never raises out of
the run and is isolated, but the failed prompt is omitted entirely from
`detailed_results` (no error marker is recorded): the run records exactly
one result per successful call, every recorded response comes from a
successful call, and the summary is aggregated from the successful
analyses only. -/
theorem run_failure_isolated (bn cb q : Str) (provider : Nat → Option Str) :
    (run_analysis bn cb q provider).detailed_results.length
      = ((List.range (generate_prompts q).length).filter
          (fun i => (provider i).isSome)).length
    ∧ (∀ r ∈ (run_analysis bn cb q provider).detailed_results,
        ∃ i, provider i = some r.response)
    ∧ (run_analysis bn cb q provider).summary
      = (((generate_prompts q).enum.filterMap
            (fun ip => (provider ip.1).map
              (fun t => analyze_response t bn cb))).foldl updateTotals
          (initTotals bn cb)).map
          (fun t => (t.1, mkSummary t.2.1 t.2.2)) := by
  refine ⟨?_, ?_, ?_⟩
  · show ((((generate_prompts q).enum).foldl
        (runStep bn cb provider) ([], initTotals bn cb)).1).length = _
    rw [foldl_runStep_len, ← List.enum_map_fst (generate_prompts q),
      length_filter_map Prod.fst (fun i => (provider i).isSome)]
    simp only [List.length_nil, Nat.zero_add]
  · intro r hr
    exact foldl_runStep_prov bn cb provider (generate_prompts q).enum
      ([], initTotals bn cb) (by intro r2 hr2; simp at hr2) r hr
  · show ((((generate_prompts q).enum).foldl
        (runStep bn cb provider) ([], initTotals bn cb)).2).map _ = _
    rw [foldl_runStep_totals]

/-- Witness for `run_failure_isolated` on the one-failure scenario. -/
theorem run_failure_isolated_witness :
    (run_analysis (str "acme") [] (str "q") provFail3).detailed_results.length
        = ((List.range (generate_prompts (str "q")).length).filter
            (fun i => (provFail3 i).isSome)).length
    ∧ ∃ i, provFail3 i = some (str "1. Acme - x") :=
  ⟨(run_failure_isolated (str "acme") [] (str "q") provFail3).1,
   (run_failure_isolated (str "acme") [] (str "q") provFail3).2.1
     { prompt := str "List the top 10 results for " ++ str "q" ++ str ".",
       response := str "1. Acme - x",
       analysis := analyze_response (str "1. Acme - x") (str "acme") [] }
     (by decide)⟩

/-- Claim C1, counterexample: aggregating an empty position set does NOT
yield explicitly absent statistics — the code coerces the average to the
numeric default `0` (`avg_position = ... if positions else 0`), and no
median, best or worst position is computed at all. -/
theorem aggregate_empty_yields_zero :
    (mkSummary 0 []).average_position = 0 ∧ (mkSummary 0 []).times_ranked = 0
      ∧ (mkSummary 0 []).total_mentions = 0 := by
  refine ⟨?_, rfl, rfl⟩
  show round2 0 = 0
  rw [round2, roundHalfEven]
  norm_num

/-- Claim C1, amended: aggregating `[]` yields `average_position` equal to
the numeric default `0` together with `times_ranked 0` (the summary has no
median/best/worst fields); aggregating `[1,3,5]` yields average `3` and
`times_ranked 3` with the positions preserved. -/
theorem aggregate_empty_and_135 :
    mkSummary 0 [] =
      { total_mentions := 0, average_position := 0, times_ranked := 0,
        rankings := [] }
    ∧ (mkSummary 3 [1, 3, 5]).average_position = 3
    ∧ (mkSummary 3 [1, 3, 5]).times_ranked = 3
    ∧ (mkSummary 3 [1, 3, 5]).rankings = [1, 3, 5] := by
  refine ⟨?_, ?_, rfl, rfl⟩
  · have h : round2 0 = 0 := by rw [round2, roundHalfEven]; norm_num
    simp [mkSummary, h]
  · show round2 ((9 : ℚ) / 3) = 3
    rw [round2, roundHalfEven]
    norm_num

/-- Claim C2, counterexample: the Locator's comparison is case-sensitive
containment of the lower-cased brand in the item as given, so locating
`"acme"` in the original-cased items `["Acme Corp","Foo","Bar"]` yields no
match (not position 1); and the Segmenter does not preserve casing —
`segment "Acme"` is `["acme"]`. -/
theorem locate_original_case_no_match :
    (locateBrand [str "Acme Corp", str "Foo", str "Bar"]
        (str "acme")).positions = []
    ∧ segment (str "Acme") = [str "acme"]
    ∧ str "acme" ≠ str "Acme" := by
  refine ⟨by decide, by decide, by decide⟩

/-- Claim C2, amended: the Segmenter lower-cases the whole input
(case-insensitive matching is obtained by rewriting the corpus, not at
comparison time), so the items are lower-cased; on those items locating
`"acme"` yields position 1 with the lower-cased context `"acme corp"`, and
locating `"zzz"` yields no match. -/
theorem locate_lowercased_items :
    (locateBrand [str "acme corp", str "foo", str "bar"]
        (str "acme")).positions = [1]
    ∧ (locateBrand [str "acme corp", str "foo", str "bar"]
        (str "acme")).mentions = [str "acme corp"]
    ∧ (locateBrand [str "acme corp", str "foo", str "bar"]
        (str "zzz")).positions = []
    ∧ segment (str "Acme Corp") = [str "acme corp"] := by
  refine ⟨by decide, by decide, by decide, by decide⟩

/-- Claim C3, counterexample: segmenting `"1. A\n2. B\n3. C"` does not
produce `["A","B","C"]`. -/
theorem segment_numbered_list_ne_spec :
    segment (str "1. A\n2. B\n3. C") ≠ [str "A", str "B", str "C"] := by
  decide

/-- Claim C3, amended: segmenting `"1. A\n2. B\n3. C"` produces
`["1. a","b","c"]` — the split pattern only recognizes markers preceded by
a newline, so the first line keeps its `"1. "` marker, and the text is
lower-cased first. -/
theorem segment_numbered_list :
    segment (str "1. A\n2. B\n3. C") = [str "1. a", str "b", str "c"] := by
  decide

/-- Claim C6: the Heuristic Brand Extractor yields `"Tesla"` from
`"1. Tesla - electric vehicles"`, `"BMW"` (parenthetical stripped) from
`"2. BMW (Germany)"`, and no candidate from any line that does not begin
with a numeral sequence followed by a period. -/
theorem extractor_examples :
    extractCandidate (str "1. Tesla - electric vehicles")
        = some (str "Tesla")
    ∧ extractCandidate (str "2. BMW (Germany)") = some (str "BMW")
    ∧ ∀ line : Str, numDot line = none → extractCandidate line = none := by
  refine ⟨by decide, by decide, ?_⟩
  intro line h
  simp [extractCandidate, h]

/-- Witness for `extractor_examples` at the concrete non-qualifying line
`"no numeral"`. -/
theorem extractor_examples_witness :
    numDot (str "no numeral") = none
      ∧ extractCandidate (str "no numeral") = none :=
  ⟨by decide, extractor_examples.2.2 _ (by decide)⟩

/-- Claim C9: `generate_prompts` always returns the same fixed ordered list
of 15 prompts for a query (there is no prompt-set-size configuration, so
"5 or 15" holds with 15), and equal queries give identical sequences. -/
theorem generate_prompts_fixed :
    ∀ q : Str, (generate_prompts q).length = 15
      ∧ ((generate_prompts q).length = 5 ∨ (generate_prompts q).length = 15)
      ∧ ∀ q2 : Str, q2 = q → generate_prompts q2 = generate_prompts q :=
  fun _ => ⟨rfl, Or.inr rfl, fun _ h => h ▸ rfl⟩

/-- Witness for `generate_prompts_fixed` at the query `"cars"`. -/
theorem generate_prompts_fixed_witness :
    (generate_prompts (str "cars")).length = 15
      ∧ generate_prompts (str "cars") = generate_prompts (str "cars") :=
  ⟨(generate_prompts_fixed (str "cars")).1,
   (generate_prompts_fixed (str "cars")).2.2 _ rfl⟩

end VisTracker
